import Mathlib

/-!
Verification of the remote project importer of `zktx-io/playmove`
(`src/utils/fetchGitHub.ts`).

The TypeScript source is shallowly embedded: every function of the importer
becomes a pure Lean definition.  Network I/O is made explicit by passing the
responses the provider would return as function-valued parameters, and the
two observable side effects of a run — which raw files were downloaded and
which directory entries were listed — are returned alongside the file map.
JavaScript exceptions become `Except GHError`, and `null`/`undefined` become
`Option`.  JavaScript string primitives used by the source
(`startsWith`, `slice`, `endsWith`, `toLowerCase`, `split`, `join`,
`lastIndexOf`, trailing-slash `replace`) are modelled on `String.data`
(`List Char`), which matches their code-unit semantics on the inputs
that the importer handles.
-/

namespace Playmove

/-- Models JavaScript `String.prototype.startsWith`:
`s.startsWith(pre)` holds when the first `pre.length` code units of `s`
are exactly `pre`. -/
def jsStartsWith (s pre : String) : Bool :=
  decide (s.data.take pre.data.length = pre.data)

/-- Models JavaScript `String.prototype.endsWith`. -/
def jsEndsWith (s suf : String) : Bool :=
  decide (s.data.reverse.take suf.data.length = suf.data.reverse)

/-- Models JavaScript `s.slice(n)`: drop the first `n` code units. -/
def jsDropStr (s : String) (n : Nat) : String :=
  String.mk (s.data.drop n)

/-- Models JavaScript `String.prototype.toLowerCase` (ASCII range suffices
for host names). -/
def jsToLower (s : String) : String :=
  String.mk (s.data.map Char.toLower)

/-- Whitespace removed by JavaScript `String.prototype.trim` (the ASCII
range, which covers the URL strings the importer receives). -/
def jsIsWhitespace (c : Char) : Bool :=
  c = ' ' || c = '\t' || c = '\n' || c = '\r' || c = '\x0b' || c = '\x0c'

/-- Models JavaScript `String.prototype.trim`. -/
def jsTrim (s : String) : String :=
  String.mk (((s.data.dropWhile jsIsWhitespace).reverse.dropWhile jsIsWhitespace).reverse)

/-- Models `raw.replace(/\/+$/, '')`: remove every trailing `'/'`. -/
def stripTrailingSlashes (s : String) : String :=
  String.mk ((s.data.reverse.dropWhile (fun c => c = '/')).reverse)

/-- Tail of the scheme test `/^[a-zA-Z][a-zA-Z0-9+.-]*:\/\//`: after the
leading letter, consume scheme characters until the literal `"://"`. -/
def schemeTail : List Char → Bool
  | [] => false
  | ':' :: '/' :: '/' :: _ => true
  | c :: cs => (c.isAlphanum || c = '+' || c = '.' || c = '-') && schemeTail cs

/-- Models the source's scheme test `/^[a-zA-Z][a-zA-Z0-9+.-]*:\/\//.test s`. -/
def hasScheme (s : String) : Bool :=
  match s.data with
  | [] => false
  | c :: cs => c.isAlpha && schemeTail cs

/-- The normalisation `parseGitHubUrl` applies before constructing a URL:
trim, strip trailing slashes, and default the scheme to `https://`. -/
def normalizeUrl (raw : String) : String :=
  let trimmed := stripTrailingSlashes (jsTrim raw)
  if hasScheme trimmed then trimmed else "https://" ++ trimmed

/-- The two fields of the platform `URL` object the source reads. -/
structure URLParts where
  hostname : String
  pathname : String
deriving DecidableEq, Repr

/-- Scan for the literal `"://"` and return what follows it. -/
def afterSchemeSep : List Char → Option (List Char)
  | [] => none
  | ':' :: '/' :: '/' :: rest => some rest
  | _ :: cs => afterSchemeSep cs

/-- Modelled from the spec: the platform `new URL(...)` constructor used by
`parseGitHubUrl` (not part of the repository).  Per the spec the string
must "parse as a well-formed URL"; the model requires a `scheme://host`
shape with a non-empty host, splits the remainder at the first `'/'` into
`hostname` and `pathname`, and reports `pathname = "/"` when the path is
empty — exactly the fragment of URL behaviour the importer relies on
(user-info, ports, query and fragment are outside the importer's inputs). -/
def parseURL (s : String) : Option URLParts :=
  match afterSchemeSep s.data with
  | none => none
  | some rest =>
    let host := rest.takeWhile (fun c => c ≠ '/')
    let path := rest.dropWhile (fun c => c ≠ '/')
    if host = [] then none
    else some ⟨String.mk host, String.mk (if path = [] then ['/'] else path)⟩

/-- Accumulator pass behind `pathname.split('/').filter(Boolean)`: collect
the maximal runs of non-`'/'` characters. -/
def segsAux (acc : List Char) : List Char → List (List Char)
  | [] => if acc = [] then [] else [acc.reverse]
  | c :: cs =>
    if c = '/' then
      if acc = [] then segsAux [] cs else acc.reverse :: segsAux [] cs
    else segsAux (c :: acc) cs

/-- Models `url.pathname.split('/').filter(Boolean)`: the non-empty
segments of the path. -/
def pathSegs (p : String) : List String :=
  (segsAux [] p.data).map String.mk

/-- Models `Array.prototype.join('/')`. -/
def joinSlash : List String → String
  | [] => ""
  | [s] => s
  | s :: ss => s ++ "/" ++ joinSlash ss

/-- Models `parts[1].replace(/\.git$/, '')`. -/
def stripDotGit (s : String) : String :=
  if jsEndsWith s ".git" then String.mk (s.data.take (s.data.length - 4)) else s

/-- The `GitHubRef` interface of the source: owner / repo / ref / sub-path. -/
structure GitHubRef where
  owner : String
  repo : String
  ref : String
  path : String
deriving DecidableEq, Repr

/-- `parseGitHubUrl` from `src/utils/fetchGitHub.ts`.  The two `throw`
sites (`'Invalid GitHub URL — expected github.com/owner/repo'`) become
`none`; the function performs no network access. -/
def parseGitHubUrl (raw : String) : Option GitHubRef :=
  match parseURL (normalizeUrl raw) with
  | none => none
  | some u =>
    let host := jsToLower u.hostname
    if host ≠ "github.com" ∧ host ≠ "www.github.com" then none
    else
      let parts := pathSegs u.pathname
      if parts.length < 2 then none
      else
        let owner := parts.getD 0 ""
        let repo := stripDotGit (parts.getD 1 "")
        if parts.getD 2 "" = "tree" ∧ 4 ≤ parts.length then
          some ⟨owner, repo, parts.getD 3 "", joinSlash (parts.drop 4)⟩
        else
          some ⟨owner, repo, "", ""⟩

/-! ### Errors and the HTTP layer

Every `throw new Error(...)` site of the source gets one constructor; the
exact message text of each site is recorded by `errMessage`.
`logThrew` models an exception raised by a caller-supplied `onLog` sink
escaping through the importer, and `fuelExhausted` models non-termination
of the unbounded directory recursion (the embedding bounds it with fuel). -/

inductive GHError where
  | invalidUrl : GHError
  | rateLimited : GHError
  | notFound : GHError
  | apiError (status : Nat) (statusText : String) : GHError
  | treeTruncated : GHError
  | rawFetchFailed (path : String) (status : Nat) : GHError
  | noFiles : GHError
  | noMoveToml : GHError
  | logThrew : GHError
  | fuelExhausted : GHError
deriving DecidableEq, Repr

/-- The message each `throw` site of the source attaches to its `Error`
(`logThrew` and `fuelExhausted` are embedding artifacts carrying whatever
the sink threw, resp. no message). -/
def errMessage : GHError → String
  | .invalidUrl => "Invalid GitHub URL — expected github.com/owner/repo"
  | .rateLimited => "GitHub API rate limit exceeded. Add a token (🔑) to increase the limit."
  | .notFound => "Repository or path not found (404)."
  | .apiError status statusText => s!"GitHub API error: {status} {statusText}"
  | .treeTruncated => "Tree truncated"
  | .rawFetchFailed path status => s!"Failed to fetch {path}: {status}"
  | .noFiles => "No files found — is the path correct?"
  | .noMoveToml => "Move.toml not found — this does not look like a Move package."
  | .logThrew => ""
  | .fuelExhausted => ""

/-- One HTTP response as the importer observes it: status, status text, and
the already-parsed body (the source only reads the body of an ok response). -/
structure GHResponse (α : Type) where
  status : Nat
  statusText : String
  body : α
deriving Repr

/-- The `Response.ok` flag of the platform fetch API: status in 200–299. -/
def resOk (status : Nat) : Bool :=
  decide (200 ≤ status ∧ status < 300)

/-- `ghFetch` from the source: 403 becomes the rate-limit error, 404 the
not-found error, any other non-2xx a provider error carrying status and
status text; an ok response yields its body. -/
def ghFetch {α : Type} (r : GHResponse α) : Except GHError α :=
  if resOk r.status = false then
    if r.status = 403 then .error .rateLimited
    else if r.status = 404 then .error .notFound
    else .error (.apiError r.status r.statusText)
  else .ok r.body

/-- `fetchRawFile` from the source: any non-ok response throws
`Failed to fetch {path}: {status}` — note the 403/404 mapping of `ghFetch`
is absent here; an ok response yields the body text. -/
def fetchRawFile (path : String) (r : GHResponse String) : Except GHError String :=
  if resOk r.status = false then .error (.rawFetchFailed path r.status)
  else .ok r.body

/-! ### Binary detection and shared path helpers -/

/-- The fixed `BINARY_EXT` denylist of the source. -/
def BINARY_EXT : List String :=
  [".png", ".jpg", ".jpeg", ".gif", ".ico", ".svg",
   ".woff", ".woff2", ".ttf", ".otf", ".eot",
   ".mp3", ".mp4", ".zip", ".tar", ".gz", ".wasm", ".pdf",
   ".exe", ".dll", ".so", ".dylib"]

/-- `path.slice(path.lastIndexOf('.'))`: the suffix starting at the last
dot, or `none` when the path has no dot. -/
def lastExt (l : List Char) : Option (List Char) :=
  let r := l.reverse.takeWhile (fun c => c ≠ '.')
  if r.length = l.length then none else some ('.' :: r.reverse)

/-- `isBinary` from the source: the lower-cased last extension is on the
denylist; a path without a dot is never binary. -/
def isBinary (path : String) : Bool :=
  match lastExt path.data with
  | none => false
  | some e => BINARY_EXT.contains (String.mk (e.map Char.toLower))

/-- `const prefix = subPath ? subPath + '/' : ''` — shared by both
strategies. -/
def mkPfx (subPath : String) : String :=
  if subPath = "" then "" else subPath ++ "/"

/-- `prefix ? p.slice(prefix.length) : p` — the key a downloaded file is
inserted under. -/
def relKey (pfx p : String) : String :=
  if pfx = "" then p else jsDropStr p pfx.length

/-! ### Strategy A: Git Trees (recursive) -/

/-- `GHTreeItem` from the source (`size` is optional in the Trees API). -/
structure GHTreeItem where
  path : String
  mode : String
  type : String
  sha : String
  size : Option Nat
  url : String
deriving DecidableEq, Repr

/-- `GHTreeResponse` from the source (the unread `sha`/`url` fields are
dropped). -/
structure GHTreeResponse where
  tree : List GHTreeItem
  truncated : Bool
deriving Repr

/-- The blob filter of `fetchViaTree`: a blob, under the sub-path, with
`(item.size ?? 0) < 512_000`, and not binary. -/
def treeEligible (pfx : String) (item : GHTreeItem) : Bool :=
  item.type == "blob" &&
  (if pfx = "" then true else jsStartsWith item.path pfx) &&
  decide (item.size.getD 0 < 512000) &&
  !(isBinary item.path)

/-- The network as `fetchViaTree` sees it: the one Trees-API response, and
the raw-content response for each path. -/
structure TreeNet where
  treeRes : GHResponse GHTreeResponse
  raw : String → GHResponse String

/-- The flat path → content mapping (`FileMap` in the source); assignments
are recorded in order, later assignments to a key shadowing earlier ones. -/
abbrev FileMap := List (String × String)

/-- Models `Object.keys`: each distinct key once, in first-insertion order. -/
def objKeys (m : FileMap) : List String :=
  (m.map Prod.fst).dedup

/-- A strategy's outcome: the file map plus the list of repository paths for
which a raw-content download was issued (instrumentation of the only
network side effect besides the listings). -/
structure FetchOut where
  files : FileMap
  downloads : List String
deriving DecidableEq, Repr

/-- The download loop of `fetchViaTree`: fetch every filtered blob and
insert it under its stripped key.  (The source issues these in batches of
10 via `Promise.all`; any single failure fails the strategy, and on success
the resulting assignments are identical, so the embedding sequences them.) -/
def downloadBlobs (pfx : String) (raw : String → GHResponse String) :
    List GHTreeItem → Except GHError FetchOut
  | [] => .ok ⟨[], []⟩
  | b :: rest =>
    match fetchRawFile b.path (raw b.path) with
    | .error e => .error e
    | .ok content =>
      match downloadBlobs pfx raw rest with
      | .error e => .error e
      | .ok out => .ok ⟨(relKey pfx b.path, content) :: out.files, b.path :: out.downloads⟩

/-- Log messages of the source, named so theorems can refer to them. -/
def msgFetchTree : String := "⬇️  Fetching file tree…"

/-- The `📄 N files to download` progress message. -/
def msgFilesToDownload (n : Nat) : String := s!"📄 {n} files to download"

/-- `fetchViaTree` from the source: one recursive tree listing via
`ghFetch`; fail outright on `truncated`; filter blobs; download the rest. -/
def fetchViaTree (subPath : String) (net : TreeNet) (log : String → Option Unit) :
    Except GHError FetchOut :=
  match log msgFetchTree with
  | none => .error .logThrew
  | some _ =>
    match ghFetch net.treeRes with
    | .error e => .error e
    | .ok tr =>
      if tr.truncated then .error .treeTruncated
      else
        let pfx := mkPfx subPath
        let blobs := tr.tree.filter (treeEligible pfx)
        match log (msgFilesToDownload blobs.length) with
        | none => .error .logThrew
        | some _ => downloadBlobs pfx net.raw blobs

/-! ### Strategy B: Contents API (directory walk) -/

/-- `GHContentsItem` from the source (`download_url` is nullable). -/
structure GHContentsItem where
  name : String
  path : String
  type : String
  download_url : Option String
  size : Nat
deriving DecidableEq, Repr

/-- JavaScript truthiness of `item.download_url`: `null` and the empty
string are falsy. -/
def isTruthy : Option String → Bool
  | none => false
  | some s => s ≠ ""

/-- The file filter of the directory walk: a file with a truthy
`download_url`, `size < 512_000`, and not binary. -/
def contentsEligible (item : GHContentsItem) : Bool :=
  item.type == "file" &&
  isTruthy item.download_url &&
  decide (item.size < 512000) &&
  !(isBinary item.path)

/-- The network as the walk sees it: the Contents-API response per
directory path, and the raw-content response per file path. -/
structure ContentsNet where
  listing : String → GHResponse (List GHContentsItem)
  raw : String → GHResponse String

/-- The walk's running state: the file map under construction, plus the
instrumentation of its observable effects — every path downloaded and
every directory entry ever returned by a listing. -/
structure WalkOut where
  files : FileMap
  downloads : List String
  seen : List GHContentsItem
deriving DecidableEq, Repr

mutual

/-- The inner `walk(dirPath)` of `fetchViaContents`: list a directory and
process its entries.  `fuel` bounds the recursion depth; the source has no
such bound and would not terminate on a cyclic listing.  (Fuel is consumed
per processed entry as well as per directory, so it is a bound, not a
semantic quantity; any sufficiently large value reproduces the source.) -/
def walk (net : ContentsNet) (subPath : String) :
    Nat → String → WalkOut → Except GHError WalkOut
  | 0, _, _ => .error .fuelExhausted
  | Nat.succ fuel, dirPath, st =>
    match ghFetch (net.listing dirPath) with
    | .error e => .error e
    | .ok items => walkItems net subPath fuel items ⟨st.files, st.downloads, st.seen ++ items⟩
termination_by structural fuel _ _ => fuel

/-- The `for (const item of items)` body of `walk`: recurse into
directories, download eligible files, skip the rest. -/
def walkItems (net : ContentsNet) (subPath : String) :
    Nat → List GHContentsItem → WalkOut → Except GHError WalkOut
  | _, [], st => .ok st
  | 0, _ :: _, _ => .error .fuelExhausted
  | Nat.succ fuel, item :: rest, st =>
    if item.type == "dir" then
      match walk net subPath fuel item.path st with
      | .error e => .error e
      | .ok st2 => walkItems net subPath fuel rest st2
    else
      if contentsEligible item then
        match fetchRawFile item.path (net.raw item.path) with
        | .error e => .error e
        | .ok content =>
          walkItems net subPath fuel rest
            ⟨st.files ++ [(relKey (mkPfx subPath) item.path, content)],
             st.downloads ++ [item.path], st.seen⟩
      else walkItems net subPath fuel rest st
termination_by structural fuel _ _ => fuel

end

/-- The log message announcing the fallback walk. -/
def msgViaContents : String := "⬇️  Fetching files via Contents API…"

/-- `fetchViaContents` from the source: log, then walk starting at
`subPath`. -/
def fetchViaContents (subPath : String) (net : ContentsNet)
    (log : String → Option Unit) (fuel : Nat) : Except GHError WalkOut :=
  match log msgViaContents with
  | none => .error .logThrew
  | some _ => walk net subPath fuel subPath ⟨[], [], []⟩

/-! ### The orchestrator `fetchGitHubProject` -/

/-- The body of the repository-metadata lookup (`{default_branch}`). -/
structure MetaBody where
  default_branch : String
deriving Repr

/-- The provider as the orchestrator sees it, for the one `owner/repo` the
parsed URL names.  Every response may depend on the bearer token sent
(`none` = unauthenticated), mirroring that the source attaches an
`Authorization` header exactly when a token is present. -/
structure Network where
  meta : Option String → GHResponse MetaBody
  tree : String → Option String → GHResponse GHTreeResponse
  listing : String → String → Option String → GHResponse (List GHContentsItem)
  raw : String → String → Option String → GHResponse String

/-- The fixed `localStorage` key the source reads the token from. -/
def GH_TOKEN_KEY : String := "gh_token"

/-- The tree-strategy view of the network for a resolved branch and token. -/
def mkTreeNet (net : Network) (branch : String) (token : Option String) : TreeNet :=
  ⟨net.tree branch token, fun p => net.raw branch p token⟩

/-- The walk-strategy view of the network for a resolved branch and token. -/
def mkContentsNet (net : Network) (branch : String) (token : Option String) : ContentsNet :=
  ⟨fun d => net.listing branch d token, fun p => net.raw branch p token⟩

/-- The `Move.toml` validation of the orchestrator: some key is exactly
`Move.toml` or ends in `/Move.toml`. -/
def hasMoveToml (m : FileMap) : Bool :=
  (objKeys m).any (fun p => p == "Move.toml" || jsEndsWith p "/Move.toml")

/-- `FetchGitHubResult` from the source. -/
structure FetchGitHubResult where
  files : FileMap
  repoName : String
deriving DecidableEq, Repr

/-- The fallback notice the orchestrator logs when the tree strategy fails. -/
def msgFallback : String := "⚠️ Trees API failed, falling back to Contents API…"

/-- The `try { fetchViaTree } catch { fetchViaContents }` block of the
orchestrator: the walk is attempted after any tree-strategy failure, and
its outcome — mapping or error — is what the orchestrator continues with. -/
def runStrategies (subPath : String) (tnet : TreeNet) (cnet : ContentsNet)
    (fuel : Nat) (log : String → Option Unit) : Except GHError FileMap :=
  match fetchViaTree subPath tnet log with
  | .ok out => .ok out.files
  | .error _ =>
    match log msgFallback with
    | none => .error .logThrew
    | some _ =>
      match fetchViaContents subPath cnet log fuel with
      | .error e => .error e
      | .ok w => .ok w.files

/-- The remaining orchestrator log messages. -/
def msgRepo (owner repo : String) : String := s!"📦 Repo: {owner}/{repo}"

/-- The `📁 Path:` message, logged only for a non-empty sub-path. -/
def msgPath (p : String) : String := s!"📁 Path: {p}"

/-- The default-branch resolution notice. -/
def msgResolving : String := "🔍 Resolving default branch…"

/-- The `🌿 Branch:` message. -/
def msgBranch (b : String) : String := s!"🌿 Branch: {b}"

/-- The success message with the final file count. -/
def msgFetched (n : Nat) : String := s!"✅ Fetched {n} files"

/-- `fetchGitHubProject` from the source.  `storage` models the ambient
`localStorage` (read once, at the key `gh_token`); `onLog` is the optional
progress sink, whose `none` default is the no-op `() => {}`; a sink
returning `none` models a sink that throws, and the importer aborts with
`logThrew` wherever the source would let that exception escape. -/
def fetchGitHubProject (storage : String → Option String) (net : Network)
    (fuel : Nat) (rawUrl : String) (onLog : Option (String → Option Unit)) :
    Except GHError FetchGitHubResult :=
  let token := storage GH_TOKEN_KEY
  let log := onLog.getD (fun _ => some ())
  match parseGitHubUrl rawUrl with
  | none => .error .invalidUrl
  | some r =>
    match log (msgRepo r.owner r.repo) with
    | none => .error .logThrew
    | some _ =>
      match (if r.path ≠ "" then log (msgPath r.path) else some ()) with
      | none => .error .logThrew
      | some _ =>
        match (if r.ref = "" then
                 match log msgResolving with
                 | none => Except.error GHError.logThrew
                 | some _ => (ghFetch (net.meta token)).map MetaBody.default_branch
               else Except.ok r.ref : Except GHError String) with
        | .error e => .error e
        | .ok branch =>
          match log (msgBranch branch) with
          | none => .error .logThrew
          | some _ =>
            match runStrategies r.path (mkTreeNet net branch token)
                (mkContentsNet net branch token) fuel log with
            | .error e => .error e
            | .ok fileMap =>
              if (objKeys fileMap).length = 0 then .error .noFiles
              else if hasMoveToml fileMap = false then .error .noMoveToml
              else
                match log (msgFetched (objKeys fileMap).length) with
                | none => .error .logThrew
                | some _ => .ok ⟨fileMap, r.repo⟩

/-! ### Verification-support definitions and witness fixtures -/

/-- Decidable equality on `Except`, so that concrete runs of the
embedded importer can be compared with `decide`. -/
instance exceptDecEq {ε α : Type} [DecidableEq ε] [DecidableEq α] :
    DecidableEq (Except ε α) := fun a b =>
  match a, b with
  | .ok x, .ok y =>
    if h : x = y then .isTrue (by rw [h]) else .isFalse (fun hc => h (Except.ok.inj hc))
  | .error x, .error y =>
    if h : x = y then .isTrue (by rw [h]) else .isFalse (fun hc => h (Except.error.inj hc))
  | .ok _, .error _ => .isFalse (fun hc => Except.noConfusion hc)
  | .error _, .ok _ => .isFalse (fun hc => Except.noConfusion hc)

/-- What one (possibly many-step) stretch of the walk guarantees about how
the state evolved: the seen entries only grow, and every new download and
every new file-map entry stems from a seen entry that passed the file
filter. -/
def ProvStep (net : ContentsNet) (subPath : String) (st st' : WalkOut) : Prop :=
  (∀ i ∈ st.seen, i ∈ st'.seen) ∧
  (∀ p ∈ st'.downloads, p ∈ st.downloads ∨
    ∃ i ∈ st'.seen, contentsEligible i = true ∧ p = i.path) ∧
  (∀ kv ∈ st'.files, kv ∈ st.files ∨
    ∃ i ∈ st'.seen, contentsEligible i = true ∧
      kv = (relKey (mkPfx subPath) i.path, (net.raw i.path).body))

/-- Witness fixtures for C3: a mixed tree listing with an oversized and a
binary entry, and a directory with an oversized entry. -/
def w3TreeNet : TreeNet :=
  ⟨⟨200, "OK", ⟨[⟨"Move.toml", "100644", "blob", "s1", some 100, "u1"⟩,
                 ⟨"big.txt", "100644", "blob", "s2", some 600000, "u2"⟩,
                 ⟨"logo.png", "100644", "blob", "s3", some 10, "u3"⟩], false⟩⟩,
   fun _ => ⟨200, "OK", "C"⟩⟩

/-- C3 fixture: the directory-walk side, one directory holding an eligible
and an oversized file. -/
def w3CNet : ContentsNet :=
  ⟨fun d => if d = "pkg"
      then ⟨200, "OK", [⟨"Move.toml", "pkg/Move.toml", "file", some "dl", 100⟩,
                        ⟨"big.txt", "pkg/big.txt", "file", some "dl", 600000⟩]⟩
      else ⟨200, "OK", []⟩,
   fun _ => ⟨200, "OK", "C"⟩⟩

/-- Witness fixture for C4: a tree holding one entry under `pkg` and one
outside it. -/
def w4TreeNet : TreeNet :=
  ⟨⟨200, "OK", ⟨[⟨"pkg/Move.toml", "100644", "blob", "s1", some 100, "u1"⟩,
                 ⟨"other/readme.md", "100644", "blob", "s2", some 50, "u2"⟩], false⟩⟩,
   fun _ => ⟨200, "OK", "C"⟩⟩

/-- Witness fixture for C5: a truncated tree listing. -/
def w5TreeNet : TreeNet := ⟨⟨200, "OK", ⟨[], true⟩⟩, fun _ => ⟨200, "OK", ""⟩⟩

/-- C5 fixture: the walk side, failing with 404. -/
def w5CNet : ContentsNet := ⟨fun _ => ⟨404, "Not Found", []⟩, fun _ => ⟨200, "OK", ""⟩⟩

/-- Witness fixture for C6: a provider with one `Move.toml` at the root. -/
def w6Net : Network :=
  ⟨fun _ => ⟨200, "OK", ⟨"main"⟩⟩,
   fun _ _ => ⟨200, "OK", ⟨[⟨"Move.toml", "100644", "blob", "s", some 100, "u"⟩], false⟩⟩,
   fun _ _ _ => ⟨404, "Not Found", []⟩,
   fun _ _ _ => ⟨200, "OK", "C"⟩⟩

/-- C6 fixture: a repository whose only file is filtered out. -/
def w6NetEmpty : Network :=
  ⟨fun _ => ⟨200, "OK", ⟨"main"⟩⟩,
   fun _ _ => ⟨200, "OK", ⟨[⟨"logo.png", "100644", "blob", "s", some 10, "u"⟩], false⟩⟩,
   fun _ _ _ => ⟨404, "Not Found", []⟩,
   fun _ _ _ => ⟨200, "OK", "C"⟩⟩

/-- C6 fixture: a repository with files but no manifest. -/
def w6NetNoToml : Network :=
  ⟨fun _ => ⟨200, "OK", ⟨"main"⟩⟩,
   fun _ _ => ⟨200, "OK", ⟨[⟨"readme.md", "100644", "blob", "s", some 10, "u"⟩], false⟩⟩,
   fun _ _ _ => ⟨404, "Not Found", []⟩,
   fun _ _ _ => ⟨200, "OK", "C"⟩⟩

/-- Fixture for the C9 counterexample: a provider whose metadata lookup
answers 403 without a bearer token and 404 with one. -/
def w9Net : Network :=
  ⟨fun t => if t = none then ⟨403, "Forbidden", ⟨"main"⟩⟩ else ⟨404, "Not Found", ⟨"main"⟩⟩,
   fun _ _ => ⟨404, "Not Found", ⟨[], false⟩⟩,
   fun _ _ _ => ⟨404, "Not Found", []⟩,
   fun _ _ _ => ⟨404, "Not Found", ""⟩⟩

/-! ### Lemmas about path segmentation and joining -/

/-- Segments produced by `segsAux` are non-empty and free of `'/'`,
provided the accumulator is. -/
theorem segsAux_good (l : List Char) : ∀ (acc : List Char), '/' ∉ acc →
    ∀ s ∈ segsAux acc l, s ≠ [] ∧ '/' ∉ s := by
  induction l with
  | nil =>
    intro acc hacc s hs
    by_cases h : acc = []
    · simp [segsAux, h] at hs
    · simp [segsAux, h] at hs
      subst hs
      refine ⟨by simpa using h, by simpa using hacc⟩
  | cons c cs ih =>
    intro acc hacc s hs
    by_cases hc : c = '/'
    · by_cases h : acc = []
      · simp [segsAux, hc, h] at hs
        exact ih [] (by simp) s hs
      · simp [segsAux, hc, h] at hs
        rcases hs with hs | hs
        · subst hs
          refine ⟨by simpa using h, by simpa using hacc⟩
        · exact ih [] (by simp) s hs
    · simp [segsAux, hc] at hs
      refine ih (c :: acc) ?_ s hs
      simp [hacc]
      exact fun h => hc h.symm

/-- Every segment of a pathname is a non-empty slash-free string. -/
theorem pathSegs_good (p : String) : ∀ s ∈ pathSegs p, s.data ≠ [] ∧ '/' ∉ s.data := by
  intro s hs
  simp only [pathSegs, List.mem_map] at hs
  obtain ⟨l, hl, rfl⟩ := hs
  exact segsAux_good p.data [] (by simp) l hl

/-- Unfolding `joinSlash` on a list of length at least two, at the level of
character data. -/
theorem joinSlash_cons_cons_data (s s' : String) (rest : List String) :
    (joinSlash (s :: s' :: rest)).data
      = s.data ++ ('/' :: (joinSlash (s' :: rest)).data) := by
  have h1 : joinSlash (s :: s' :: rest) = s ++ "/" ++ joinSlash (s' :: rest) := rfl
  have hslash : ("/" : String).data = ['/'] := by decide
  rw [h1, String.data_append, String.data_append, hslash, List.append_assoc]
  rfl

/-- `joinSlash` of non-empty segments yields a non-empty string when the
list is non-empty. -/
theorem joinSlash_ne_nil (ss : List String) (hne : ss ≠ [])
    (h : ∀ s ∈ ss, s.data ≠ []) : (joinSlash ss).data ≠ [] := by
  match ss with
  | [] => exact absurd rfl hne
  | [s] => exact h s (by simp)
  | s :: s' :: rest =>
    rw [joinSlash_cons_cons_data]
    intro hc
    exact h s (by simp) (List.append_eq_nil.mp hc).1

/-- The join of non-empty slash-free segments neither starts nor ends with
`'/'`. -/
theorem joinSlash_no_slash_ends (ss : List String)
    (h : ∀ s ∈ ss, s.data ≠ [] ∧ '/' ∉ s.data) :
    (joinSlash ss).data.head? ≠ some '/' ∧ (joinSlash ss).data.getLast? ≠ some '/' := by
  induction ss with
  | nil => simp [joinSlash]
  | cons s ss ih =>
    have hs := h s (by simp)
    match ss, ih with
    | [], _ =>
      have h1 : joinSlash [s] = s := rfl
      rw [h1]
      constructor
      · intro hc
        exact hs.2 (List.mem_of_mem_head? (by simp [hc]))
      · intro hc
        exact hs.2 (List.mem_of_mem_getLast? (by simp [hc]))
    | s' :: rest, ih =>
      have hih := ih (fun t ht => h t (by simp [ht]))
      have hne : (joinSlash (s' :: rest)).data ≠ [] :=
        joinSlash_ne_nil _ (by simp) (fun t ht => (h t (by simp [ht])).1)
      rw [joinSlash_cons_cons_data]
      constructor
      · rw [List.head?_append]
        cases hd : s.data with
        | nil => exact absurd hd hs.1
        | cons a as =>
          simp only [hd, List.head?_cons, Option.or_some]
          intro hc
          have ha : a = '/' := by injection hc
          subst ha
          exact hs.2 (by rw [hd]; exact List.mem_cons_self _ _)
      · rw [List.getLast?_append]
        have h2 : ('/' :: (joinSlash (s' :: rest)).data).getLast?
            = (joinSlash (s' :: rest)).data.getLast? := by
          cases hj : (joinSlash (s' :: rest)).data with
          | nil => exact absurd hj hne
          | cons a as => simp
        rw [h2]
        cases hj : (joinSlash (s' :: rest)).data with
        | nil => exact absurd hj hne
        | cons a as =>
          have : (a :: as).getLast? = some ((a :: as).getLast (by simp)) :=
            List.getLast?_eq_getLast _ _
          rw [this]
          simp only [Option.or_some]
          intro hc
          refine hih.2 ?_
          rw [hj, this, hc]

/-! ### Claims about the reference parser -/

/-- Claim C1: for every URL whose path after the host has at least two
non-empty segments (stated over the URL model: the normalised string
parses, the host is the hosting domain or its `www.` alias), `parse`
returns owner = first segment and repo = second segment with a trailing
`".git"` suffix stripped; if the third segment is `"tree"` and a fourth
segment exists, ref = fourth segment and subpath = the remaining segments
joined by `"/"` — which therefore has no leading or trailing slash —
otherwise ref = `""` and subpath = `""`. -/
theorem claim1_parse_success_shape (raw : String) (u : URLParts)
    (hu : parseURL (normalizeUrl raw) = some u)
    (hhost : jsToLower u.hostname = "github.com" ∨ jsToLower u.hostname = "www.github.com")
    (hlen : 2 ≤ (pathSegs u.pathname).length) :
    parseGitHubUrl raw =
      some ⟨(pathSegs u.pathname).getD 0 "",
            stripDotGit ((pathSegs u.pathname).getD 1 ""),
            if (pathSegs u.pathname).getD 2 "" = "tree" ∧ 4 ≤ (pathSegs u.pathname).length
              then (pathSegs u.pathname).getD 3 "" else "",
            if (pathSegs u.pathname).getD 2 "" = "tree" ∧ 4 ≤ (pathSegs u.pathname).length
              then joinSlash ((pathSegs u.pathname).drop 4) else ""⟩ ∧
    ∀ r, parseGitHubUrl raw = some r →
      r.path.data.head? ≠ some '/' ∧ r.path.data.getLast? ≠ some '/' := by
  have hne : ¬(jsToLower u.hostname ≠ "github.com" ∧ jsToLower u.hostname ≠ "www.github.com") := by
    rcases hhost with h | h <;> simp [h]
  have hlen' : ¬((pathSegs u.pathname).length < 2) := by omega
  have hmain : parseGitHubUrl raw =
      some ⟨(pathSegs u.pathname).getD 0 "",
            stripDotGit ((pathSegs u.pathname).getD 1 ""),
            if (pathSegs u.pathname).getD 2 "" = "tree" ∧ 4 ≤ (pathSegs u.pathname).length
              then (pathSegs u.pathname).getD 3 "" else "",
            if (pathSegs u.pathname).getD 2 "" = "tree" ∧ 4 ≤ (pathSegs u.pathname).length
              then joinSlash ((pathSegs u.pathname).drop 4) else ""⟩ := by
    rw [parseGitHubUrl, hu]
    simp only [hne, if_false, hlen', ite_false]
    by_cases hc : (pathSegs u.pathname).getD 2 "" = "tree" ∧ 4 ≤ (pathSegs u.pathname).length
    · simp only [if_pos hc]
    · simp only [if_neg hc]
  refine ⟨hmain, ?_⟩
  intro r hr
  rw [hmain] at hr
  have hr' := Option.some.inj hr
  subst hr'
  dsimp only
  by_cases hc : (pathSegs u.pathname).getD 2 "" = "tree" ∧ 4 ≤ (pathSegs u.pathname).length
  · rw [if_pos hc]
    exact joinSlash_no_slash_ends _ (fun s hs =>
      pathSegs_good u.pathname s (List.mem_of_mem_drop hs))
  · rw [if_neg hc]
    decide

/-- Witness for C1: the parser at a concrete browse-a-ref URL. -/
theorem claim1_witness :
    parseGitHubUrl "https://github.com/foo/bar.git/tree/dev/pkg/sub" =
      some ⟨"foo", "bar", "dev", "pkg/sub"⟩ ∧
    ("pkg/sub" : String).data.head? ≠ some '/' ∧
    ("pkg/sub" : String).data.getLast? ≠ some '/' := by
  have h := claim1_parse_success_shape "https://github.com/foo/bar.git/tree/dev/pkg/sub"
    ⟨"github.com", "/foo/bar.git/tree/dev/pkg/sub"⟩ (by decide) (Or.inl (by decide)) (by decide)
  refine ⟨h.1.trans (by decide), ?_⟩
  have h2 := h.2 ⟨"foo", "bar", "dev", "pkg/sub"⟩ (h.1.trans (by decide))
  exact h2

/-- Claim C2: `parse` fails (with `InvalidReference`, performing no network
access — the embedded parser is a pure function) exactly when, after
trimming trailing slashes and defaulting the scheme, the string is not a
well-formed URL, or the host is not the hosting domain or its `www.`
alias, or the path has fewer than two non-empty segments. -/
theorem claim2_parse_failure_iff (raw : String) :
    parseGitHubUrl raw = none ↔
      parseURL (normalizeUrl raw) = none ∨
      ∃ u, parseURL (normalizeUrl raw) = some u ∧
        ((jsToLower u.hostname ≠ "github.com" ∧ jsToLower u.hostname ≠ "www.github.com") ∨
         (pathSegs u.pathname).length < 2) := by
  cases hu : parseURL (normalizeUrl raw) with
  | none => simp [parseGitHubUrl, hu]
  | some u =>
    rw [parseGitHubUrl, hu]
    simp only [hu, Option.some.injEq, reduceCtorEq, false_or]
    constructor
    · intro h
      by_cases h1 : jsToLower u.hostname ≠ "github.com" ∧ jsToLower u.hostname ≠ "www.github.com"
      · exact ⟨u, rfl, Or.inl h1⟩
      · rw [if_neg h1] at h
        by_cases h2 : (pathSegs u.pathname).length < 2
        · exact ⟨u, rfl, Or.inr h2⟩
        · rw [if_neg h2] at h
          by_cases h3 : (pathSegs u.pathname).getD 2 "" = "tree" ∧ 4 ≤ (pathSegs u.pathname).length
          · rw [if_pos h3] at h; exact absurd h (by simp)
          · rw [if_neg h3] at h; exact absurd h (by simp)
    · rintro ⟨u', rfl, hbad⟩
      by_cases h1 : jsToLower u.hostname ≠ "github.com" ∧ jsToLower u.hostname ≠ "www.github.com"
      · rw [if_pos h1]
      · rcases hbad with h1' | h2
        · exact absurd h1' h1
        · rw [if_neg h1, if_pos h2]

/-- Witness for C2: the empty string, a one-segment URL, and a
non-hosting-domain URL all fail; a two-segment URL does not. -/
theorem claim2_witness :
    parseGitHubUrl "" = none ∧
    parseGitHubUrl "https://github.com/onlyowner" = none ∧
    parseGitHubUrl "https://gitlab.com/o/r" = none := by
  refine ⟨(claim2_parse_failure_iff "").mpr (Or.inl (by decide)), ?_, ?_⟩
  · exact (claim2_parse_failure_iff "https://github.com/onlyowner").mpr
      (Or.inr ⟨⟨"github.com", "/onlyowner"⟩, by decide, Or.inr (by decide)⟩)
  · exact (claim2_parse_failure_iff "https://gitlab.com/o/r").mpr
      (Or.inr ⟨⟨"gitlab.com", "/o/r"⟩, by decide, Or.inl (by decide)⟩)

/-! ### Lemmas about the HTTP layer -/

/-- An ok `ghFetch` means an ok status and yields the response body. -/
theorem ghFetch_ok {α : Type} {r : GHResponse α} {b : α} (h : ghFetch r = .ok b) :
    resOk r.status = true ∧ b = r.body := by
  unfold ghFetch at h
  by_cases hok : resOk r.status = false
  · rw [if_pos hok] at h
    by_cases h3 : r.status = 403
    · rw [if_pos h3] at h; exact absurd h (by simp)
    · rw [if_neg h3] at h
      by_cases h4 : r.status = 404
      · rw [if_pos h4] at h; exact absurd h (by simp)
      · rw [if_neg h4] at h; exact absurd h (by simp)
  · rw [if_neg hok] at h
    exact ⟨by simpa using hok, (Except.ok.inj h).symm⟩

/-- The only errors `ghFetch` produces are the three status-mapped ones. -/
theorem ghFetch_error_cases {α : Type} {r : GHResponse α} {e : GHError}
    (h : ghFetch r = .error e) :
    e = .rateLimited ∨ e = .notFound ∨ e = .apiError r.status r.statusText := by
  unfold ghFetch at h
  by_cases hok : resOk r.status = false
  · rw [if_pos hok] at h
    by_cases h3 : r.status = 403
    · rw [if_pos h3] at h; exact Or.inl (Except.error.inj h).symm
    · rw [if_neg h3] at h
      by_cases h4 : r.status = 404
      · rw [if_pos h4] at h; exact Or.inr (Or.inl (Except.error.inj h).symm)
      · rw [if_neg h4] at h; exact Or.inr (Or.inr (Except.error.inj h).symm)
  · rw [if_neg hok] at h
    exact absurd h (by simp)

/-- An ok `fetchRawFile` yields the raw response body. -/
theorem fetchRawFile_ok {p : String} {r : GHResponse String} {c : String}
    (h : fetchRawFile p r = .ok c) : resOk r.status = true ∧ c = r.body := by
  unfold fetchRawFile at h
  by_cases hok : resOk r.status = false
  · rw [if_pos hok] at h; exact absurd h (by simp)
  · rw [if_neg hok] at h
    exact ⟨by simpa using hok, (Except.ok.inj h).symm⟩

/-- The only error `fetchRawFile` produces is the generic download
failure carrying the path and status. -/
theorem fetchRawFile_error_cases {p : String} {r : GHResponse String} {e : GHError}
    (h : fetchRawFile p r = .error e) : e = .rawFetchFailed p r.status := by
  unfold fetchRawFile at h
  by_cases hok : resOk r.status = false
  · rw [if_pos hok] at h; exact (Except.error.inj h).symm
  · rw [if_neg hok] at h; exact absurd h (by simp)

/-! ### Claim C7 -/

/-- Counterexample to C7 as stated: a 403 on a raw content download does
not produce the rate-limited error (nor does a 404 produce the
reference-not-found error) — `fetchRawFile` maps every non-ok status to
the generic `Failed to fetch {path}: {status}` error. -/
theorem claim7_counterexample :
    fetchRawFile "sources/a.move" ⟨403, "rate limit exceeded", ""⟩ =
      .error (.rawFetchFailed "sources/a.move" 403) ∧
    fetchRawFile "sources/a.move" ⟨403, "rate limit exceeded", ""⟩ ≠
      .error .rateLimited ∧
    fetchRawFile "sources/a.move" ⟨404, "Not Found", ""⟩ ≠ .error .notFound := by
  refine ⟨rfl, ?_, ?_⟩ <;> decide

/-- Claim C7 (amended): for requests issued through the API helper —
metadata lookup, tree listing, directory listing — a 403 produces the
rate-limited error (whose message carries the add-a-token guidance), a
404 the reference-not-found error, and any other non-2xx a provider error
carrying the HTTP status and status text; a raw content download instead
fails with the generic download error carrying the file path and status
for every non-ok response. -/
theorem claim7_status_mapping :
    (∀ (α : Type) (r : GHResponse α),
      (r.status = 403 → ghFetch r = .error .rateLimited) ∧
      (r.status = 404 → ghFetch r = .error .notFound) ∧
      (resOk r.status = false → r.status ≠ 403 → r.status ≠ 404 →
        ghFetch r = .error (.apiError r.status r.statusText)) ∧
      (resOk r.status = true → ghFetch r = .ok r.body)) ∧
    (∀ (p : String) (r : GHResponse String),
      resOk r.status = false → fetchRawFile p r = .error (.rawFetchFailed p r.status)) ∧
    errMessage .rateLimited =
      "GitHub API rate limit exceeded. Add a token (🔑) to increase the limit." := by
  refine ⟨fun α r => ⟨?_, ?_, ?_, ?_⟩, fun p r h => ?_, rfl⟩
  · intro h
    unfold ghFetch
    rw [h]
    rfl
  · intro h
    unfold ghFetch
    rw [h]
    rfl
  · intro hok h3 h4
    unfold ghFetch
    rw [hok, if_pos rfl, if_neg h3, if_neg h4]
  · intro hok
    unfold ghFetch
    rw [hok]
    simp
  · unfold fetchRawFile
    rw [h, if_pos rfl]

/-- Witness for C7 (amended): the mapping evaluated at one response of
each kind. -/
theorem claim7_witness :
    ghFetch (⟨403, "Forbidden", 0⟩ : GHResponse Nat) = .error .rateLimited ∧
    ghFetch (⟨404, "Not Found", 0⟩ : GHResponse Nat) = .error .notFound ∧
    ghFetch (⟨500, "Internal Server Error", 0⟩ : GHResponse Nat) =
      .error (.apiError 500 "Internal Server Error") ∧
    ghFetch (⟨200, "OK", 7⟩ : GHResponse Nat) = .ok 7 ∧
    fetchRawFile "p/q.move" ⟨404, "Not Found", "body"⟩ =
      .error (.rawFetchFailed "p/q.move" 404) := by
  refine ⟨(claim7_status_mapping.1 Nat ⟨403, "Forbidden", 0⟩).1 rfl,
          (claim7_status_mapping.1 Nat ⟨404, "Not Found", 0⟩).2.1 rfl,
          (claim7_status_mapping.1 Nat ⟨500, "Internal Server Error", 0⟩).2.2.1
            (by decide) (by decide) (by decide),
          (claim7_status_mapping.1 Nat ⟨200, "OK", 7⟩).2.2.2 (by decide),
          claim7_status_mapping.2.1 "p/q.move" ⟨404, "Not Found", "body"⟩ (by decide)⟩

/-! ### String helper lemmas -/

/-- Strings with equal character data are equal. -/
theorem strExt {a b : String} (h : a.data = b.data) : a = b :=
  congrArg String.mk h

/-- `String.length` is the length of the character data. -/
theorem strLength (s : String) : s.length = s.data.length := by
  cases s; rfl

/-- Unfolding of the startsWith model. -/
theorem jsStartsWith_iff {s pre : String} :
    jsStartsWith s pre = true ↔ s.data.take pre.data.length = pre.data := by
  simp [jsStartsWith]

/-- A string that starts with `pfx` is `pfx` followed by its relative key. -/
theorem jsStartsWith_recover {p pfx : String} (hpfx : pfx ≠ "")
    (h : jsStartsWith p pfx = true) : p = pfx ++ relKey pfx p := by
  apply strExt
  rw [String.data_append]
  rw [relKey, if_neg hpfx]
  show p.data = pfx.data ++ (p.data.drop pfx.length)
  rw [strLength]
  conv_lhs => rw [← List.take_append_drop pfx.data.length p.data]
  rw [jsStartsWith_iff.mp h]

/-- Appending on the right preserves startsWith. -/
theorem jsStartsWith_append_right {p pfx : String} (q : String)
    (h : jsStartsWith p pfx = true) : jsStartsWith (p ++ q) pfx = true := by
  rw [jsStartsWith_iff] at h ⊢
  have hle : pfx.data.length ≤ p.data.length := by
    have hlen := congrArg List.length h
    rw [List.length_take] at hlen
    omega
  rw [String.data_append, List.take_append_of_le_length hle, h]

/-- `pfx ++ r` starts with `pfx`. -/
theorem jsStartsWith_prepend (pfx r : String) : jsStartsWith (pfx ++ r) pfx = true := by
  rw [jsStartsWith_iff, String.data_append,
    List.take_append_of_le_length (Nat.le_refl _), List.take_length]

/-! ### Lemmas about the tree strategy -/

/-- What `treeEligible` requires of an item. -/
theorem treeEligible_true {pfx : String} {item : GHTreeItem}
    (h : treeEligible pfx item = true) :
    item.type = "blob" ∧
    (pfx = "" ∨ jsStartsWith item.path pfx = true) ∧
    item.size.getD 0 < 512000 ∧
    isBinary item.path = false := by
  simp only [treeEligible, Bool.and_eq_true, beq_iff_eq, decide_eq_true_eq,
    Bool.not_eq_true'] at h
  refine ⟨h.1.1.1, ?_, h.1.2, h.2⟩
  by_cases hp : pfx = ""
  · exact Or.inl hp
  · have := h.1.1.2
    rw [if_neg hp] at this
    exact Or.inr this

/-- Sufficient conditions for `treeEligible`. -/
theorem treeEligible_of (pfx : String) (item : GHTreeItem)
    (h1 : item.type = "blob")
    (h2 : pfx = "" ∨ jsStartsWith item.path pfx = true)
    (h3 : item.size.getD 0 < 512000)
    (h4 : isBinary item.path = false) : treeEligible pfx item = true := by
  simp only [treeEligible, Bool.and_eq_true, beq_iff_eq, decide_eq_true_eq,
    Bool.not_eq_true']
  refine ⟨⟨⟨h1, ?_⟩, h3⟩, h4⟩
  rcases h2 with h2 | h2
  · rw [if_pos h2]
  · by_cases hp : pfx = ""
    · rw [if_pos hp]
    · rw [if_neg hp]; exact h2

/-- On success, the download loop downloads exactly the given blobs in
order and maps each stripped key to the raw response body. -/
theorem downloadBlobs_ok (pfx : String) (raw : String → GHResponse String) :
    ∀ (blobs : List GHTreeItem) (out : FetchOut),
      downloadBlobs pfx raw blobs = .ok out →
      out.downloads = blobs.map GHTreeItem.path ∧
      out.files = blobs.map (fun b => (relKey pfx b.path, (raw b.path).body)) := by
  intro blobs
  induction blobs with
  | nil =>
    intro out h
    unfold downloadBlobs at h
    have := Except.ok.inj h
    subst this
    exact ⟨rfl, rfl⟩
  | cons b rest ih =>
    intro out h
    unfold downloadBlobs at h
    cases hf : fetchRawFile b.path (raw b.path) with
    | error e => rw [hf] at h; exact absurd h (by simp)
    | ok c =>
      rw [hf] at h
      cases hd : downloadBlobs pfx raw rest with
      | error e => rw [hd] at h; exact absurd h (by simp)
      | ok out' =>
        rw [hd] at h
        have hout := Except.ok.inj h
        subst hout
        obtain ⟨ih1, ih2⟩ := ih out' hd
        obtain ⟨-, hc⟩ := fetchRawFile_ok hf
        subst hc
        exact ⟨by rw [List.map_cons, ih1], by rw [List.map_cons, ih2]⟩

/-- On success, the tree strategy saw an ok, non-truncated listing and its
output is the download loop's output on the filtered blobs. -/
theorem fetchViaTree_ok {subPath : String} {net : TreeNet}
    {log : String → Option Unit} {out : FetchOut}
    (h : fetchViaTree subPath net log = .ok out) :
    resOk net.treeRes.status = true ∧
    net.treeRes.body.truncated = false ∧
    downloadBlobs (mkPfx subPath) net.raw
      (net.treeRes.body.tree.filter (treeEligible (mkPfx subPath))) = .ok out := by
  unfold fetchViaTree at h
  cases hl : log msgFetchTree with
  | none => simp [hl] at h
  | some u =>
    simp only [hl] at h
    cases hg : ghFetch net.treeRes with
    | error e => simp [hg] at h
    | ok tr =>
      simp only [hg] at h
      obtain ⟨hok, htr⟩ := ghFetch_ok hg
      subst htr
      cases htrunc : net.treeRes.body.truncated with
      | true => simp [htrunc] at h
      | false =>
        simp only [htrunc, Bool.false_eq_true, if_false] at h
        cases hl2 : log (msgFilesToDownload
            ((net.treeRes.body.tree.filter (treeEligible (mkPfx subPath))).length)) with
        | none => simp [hl2] at h
        | some u2 =>
          simp only [hl2] at h
          exact ⟨hok, rfl, h⟩

/-- Items of a `Nodup`-path list are determined by their path. -/
theorem nodup_path_inj {l : List GHTreeItem}
    (hnd : (l.map GHTreeItem.path).Nodup) {a b : GHTreeItem}
    (ha : a ∈ l) (hb : b ∈ l) (hp : a.path = b.path) : a = b :=
  List.inj_on_of_nodup_map hnd ha hb hp

/-! ### Lemmas about the directory walk -/

/-- `ProvStep` holds reflexively. -/
theorem provStep_refl {net : ContentsNet} {subPath : String} {st : WalkOut} :
    ProvStep net subPath st st :=
  ⟨fun _ h => h, fun _ h => Or.inl h, fun _ h => Or.inl h⟩

/-- `ProvStep` composes. -/
theorem provStep_trans {net : ContentsNet} {subPath : String} {st st2 st3 : WalkOut}
    (h1 : ProvStep net subPath st st2) (h2 : ProvStep net subPath st2 st3) :
    ProvStep net subPath st st3 := by
  obtain ⟨m1, d1, f1⟩ := h1
  obtain ⟨m2, d2, f2⟩ := h2
  refine ⟨fun i h => m2 i (m1 i h), ?_, ?_⟩
  · intro p hp
    rcases d2 p hp with h | ⟨i, hi, he, hpi⟩
    · rcases d1 p h with h' | ⟨i, hi, he, hpi⟩
      · exact Or.inl h'
      · exact Or.inr ⟨i, m2 i hi, he, hpi⟩
    · exact Or.inr ⟨i, hi, he, hpi⟩
  · intro kv hk
    rcases f2 kv hk with h | ⟨i, hi, he, hkv⟩
    · rcases f1 kv h with h' | ⟨i, hi, he, hkv⟩
      · exact Or.inl h'
      · exact Or.inr ⟨i, m2 i hi, he, hkv⟩
    · exact Or.inr ⟨i, hi, he, hkv⟩

/-- A successful walk — and a successful item loop whose pending items are
already recorded as seen — only grows the state along `ProvStep`. -/
theorem walk_prov (net : ContentsNet) (subPath : String) :
    ∀ fuel : Nat,
      (∀ (d : String) (st st' : WalkOut),
        walk net subPath fuel d st = .ok st' → ProvStep net subPath st st') ∧
      (∀ (items : List GHContentsItem) (st st' : WalkOut),
        (∀ i ∈ items, i ∈ st.seen) →
        walkItems net subPath fuel items st = .ok st' →
        ProvStep net subPath st st') := by
  intro fuel
  induction fuel with
  | zero =>
    constructor
    · intro d st st' h
      simp [walk] at h
    · intro items st st' _ h
      cases items with
      | nil =>
        unfold walkItems at h
        have := Except.ok.inj h
        subst this
        exact provStep_refl
      | cons a l => simp [walkItems] at h
  | succ n ih =>
    constructor
    · intro d st st' h
      unfold walk at h
      cases hg : ghFetch (net.listing d) with
      | error e => simp [hg] at h
      | ok items =>
        simp only [hg] at h
        have hsub : ∀ i ∈ items,
            i ∈ (⟨st.files, st.downloads, st.seen ++ items⟩ : WalkOut).seen :=
          fun i hi => List.mem_append_right _ hi
        have hstep : ProvStep net subPath st ⟨st.files, st.downloads, st.seen ++ items⟩ :=
          ⟨fun i h' => List.mem_append_left _ h', fun _ hp => Or.inl hp, fun _ hk => Or.inl hk⟩
        exact provStep_trans hstep (ih.2 items _ st' hsub h)
    · intro items st st' hsub h
      cases items with
      | nil =>
        unfold walkItems at h
        have := Except.ok.inj h
        subst this
        exact provStep_refl
      | cons item rest =>
        unfold walkItems at h
        cases htype : item.type == "dir" with
        | true =>
          simp only [htype, if_true] at h
          cases hw : walk net subPath n item.path st with
          | error e => simp [hw] at h
          | ok st2 =>
            simp only [hw] at h
            have hstep := ih.1 _ _ _ hw
            refine provStep_trans hstep (ih.2 rest st2 st' ?_ h)
            intro i hi
            exact hstep.1 i (hsub i (List.mem_cons_of_mem _ hi))
        | false =>
          simp only [htype, Bool.false_eq_true, if_false] at h
          cases he : contentsEligible item with
          | true =>
            simp only [he, if_true] at h
            cases hf : fetchRawFile item.path (net.raw item.path) with
            | error e => simp [hf] at h
            | ok c =>
              simp only [hf] at h
              have hitem : item ∈ st.seen := hsub item (List.mem_cons_self _ _)
              have hstep : ProvStep net subPath st
                  ⟨st.files ++ [(relKey (mkPfx subPath) item.path, c)],
                   st.downloads ++ [item.path], st.seen⟩ := by
                refine ⟨fun i h' => h', ?_, ?_⟩
                · intro p hp
                  rcases List.mem_append.mp hp with h' | h'
                  · exact Or.inl h'
                  · have : p = item.path := by simpa using h'
                    exact Or.inr ⟨item, hitem, he, this⟩
                · intro kv hk
                  rcases List.mem_append.mp hk with h' | h'
                  · exact Or.inl h'
                  · have hkv : kv = (relKey (mkPfx subPath) item.path, c) := by simpa using h'
                    obtain ⟨-, hc⟩ := fetchRawFile_ok hf
                    exact Or.inr ⟨item, hitem, he, by rw [hkv, hc]⟩
              refine provStep_trans hstep (ih.2 rest _ st' ?_ h)
              intro i hi
              exact hsub i (List.mem_cons_of_mem _ hi)
          | false =>
            simp only [he, Bool.false_eq_true, if_false] at h
            refine ih.2 rest st st' ?_ h
            intro i hi
            exact hsub i (List.mem_cons_of_mem _ hi)

/-- Provenance for a successful `fetchViaContents` run: every download and
every mapping entry stems from a listed entry that passed the file filter. -/
theorem fetchViaContents_prov {subPath : String} {net : ContentsNet}
    {log : String → Option Unit} {fuel : Nat} {w : WalkOut}
    (h : fetchViaContents subPath net log fuel = .ok w) :
    (∀ p ∈ w.downloads, ∃ i ∈ w.seen, contentsEligible i = true ∧ p = i.path) ∧
    (∀ kv ∈ w.files, ∃ i ∈ w.seen, contentsEligible i = true ∧
      kv = (relKey (mkPfx subPath) i.path, (net.raw i.path).body)) := by
  unfold fetchViaContents at h
  cases hl : log msgViaContents with
  | none => simp [hl] at h
  | some u =>
    simp only [hl] at h
    have hp := (walk_prov net subPath fuel).1 subPath ⟨[], [], []⟩ w h
    refine ⟨fun p hp' => ?_, fun kv hk => ?_⟩
    · rcases hp.2.1 p hp' with h' | h'
      · exact absurd h' (by simp)
      · exact h'
    · rcases hp.2.2 kv hk with h' | h'
      · exact absurd h' (by simp)
      · exact h'

/-- What `contentsEligible` requires of an item. -/
theorem contentsEligible_true {item : GHContentsItem} (h : contentsEligible item = true) :
    item.type = "file" ∧ isTruthy item.download_url = true ∧
    item.size < 512000 ∧ isBinary item.path = false := by
  simp only [contentsEligible, Bool.and_eq_true, beq_iff_eq, decide_eq_true_eq,
    Bool.not_eq_true'] at h
  exact ⟨h.1.1.1, h.1.1.2, h.1.2, h.2⟩

/-- Directory entries of a `Nodup`-path list are determined by their path. -/
theorem nodup_cpath_inj {l : List GHContentsItem}
    (hnd : (l.map GHContentsItem.path).Nodup) {a b : GHContentsItem}
    (ha : a ∈ l) (hb : b ∈ l) (hp : a.path = b.path) : a = b :=
  List.inj_on_of_nodup_map hnd ha hb hp

/-- Under a consistent listing (each returned entry's path extends the
listed directory's path), a walk rooted at or below the sub-path — and an
item loop whose pending items are under the sub-path — only ever sees
entries whose path is under `subPath ++ "/"`. -/
theorem walk_under (net : ContentsNet) (subPath : String)
    (hc : ∀ (d : String), ∀ i ∈ (net.listing d).body, ∃ t, i.path = d ++ "/" ++ t) :
    ∀ fuel : Nat,
      (∀ (d : String) (st st' : WalkOut),
        walk net subPath fuel d st = .ok st' →
        (d = subPath ∨ jsStartsWith d (subPath ++ "/") = true) →
        (∀ i ∈ st.seen, jsStartsWith i.path (subPath ++ "/") = true) →
        ∀ i ∈ st'.seen, jsStartsWith i.path (subPath ++ "/") = true) ∧
      (∀ (items : List GHContentsItem) (st st' : WalkOut),
        (∀ i ∈ items, jsStartsWith i.path (subPath ++ "/") = true) →
        (∀ i ∈ st.seen, jsStartsWith i.path (subPath ++ "/") = true) →
        walkItems net subPath fuel items st = .ok st' →
        ∀ i ∈ st'.seen, jsStartsWith i.path (subPath ++ "/") = true) := by
  intro fuel
  induction fuel with
  | zero =>
    constructor
    · intro d st st' h
      simp [walk] at h
    · intro items st st' _ hst h
      cases items with
      | nil =>
        unfold walkItems at h
        have := Except.ok.inj h
        subst this
        exact hst
      | cons a l => simp [walkItems] at h
  | succ n ih =>
    constructor
    · intro d st st' h hd hst
      unfold walk at h
      cases hg : ghFetch (net.listing d) with
      | error e => simp [hg] at h
      | ok items =>
        simp only [hg] at h
        obtain ⟨-, hitems⟩ := ghFetch_ok hg
        subst hitems
        have hunder : ∀ i ∈ (net.listing d).body,
            jsStartsWith i.path (subPath ++ "/") = true := by
          intro i hi
          obtain ⟨t, ht⟩ := hc d i hi
          rcases hd with rfl | hd
          · rw [ht]
            exact jsStartsWith_prepend _ _
          · rw [ht]
            exact jsStartsWith_append_right t (jsStartsWith_append_right "/" hd)
        have hst1 : ∀ i ∈ (⟨st.files, st.downloads,
            st.seen ++ (net.listing d).body⟩ : WalkOut).seen,
            jsStartsWith i.path (subPath ++ "/") = true := by
          intro i hi
          rcases List.mem_append.mp hi with h' | h'
          · exact hst i h'
          · exact hunder i h'
        exact ih.2 _ _ st' hunder hst1 h
    · intro items st st' hitems hst h
      cases items with
      | nil =>
        unfold walkItems at h
        have := Except.ok.inj h
        subst this
        exact hst
      | cons item rest =>
        unfold walkItems at h
        cases htype : item.type == "dir" with
        | true =>
          simp only [htype, if_true] at h
          cases hw : walk net subPath n item.path st with
          | error e => simp [hw] at h
          | ok st2 =>
            simp only [hw] at h
            have hst2 := ih.1 _ _ _ hw (Or.inr (hitems item (List.mem_cons_self _ _))) hst
            exact ih.2 rest st2 st' (fun i hi => hitems i (List.mem_cons_of_mem _ hi)) hst2 h
        | false =>
          simp only [htype, Bool.false_eq_true, if_false] at h
          cases he : contentsEligible item with
          | true =>
            simp only [he, if_true] at h
            cases hf : fetchRawFile item.path (net.raw item.path) with
            | error e => simp [hf] at h
            | ok c =>
              simp only [hf] at h
              exact ih.2 rest ⟨st.files ++ [(relKey (mkPfx subPath) item.path, c)],
                st.downloads ++ [item.path], st.seen⟩ st'
                (fun i hi => hitems i (List.mem_cons_of_mem _ hi)) hst h
          | false =>
            simp only [he, Bool.false_eq_true, if_false] at h
            exact ih.2 rest st st' (fun i hi => hitems i (List.mem_cons_of_mem _ hi)) hst h

/-- Under a consistent listing, every entry a successful `fetchViaContents`
run ever saw has its path under `subPath ++ "/"`. -/
theorem fetchViaContents_under {subPath : String} {net : ContentsNet}
    {log : String → Option Unit} {fuel : Nat} {w : WalkOut}
    (hc : ∀ (d : String), ∀ i ∈ (net.listing d).body, ∃ t, i.path = d ++ "/" ++ t)
    (h : fetchViaContents subPath net log fuel = .ok w) :
    ∀ i ∈ w.seen, jsStartsWith i.path (subPath ++ "/") = true := by
  unfold fetchViaContents at h
  cases hl : log msgViaContents with
  | none => simp [hl] at h
  | some u =>
    simp only [hl] at h
    exact (walk_under net subPath hc fuel).1 subPath ⟨[], [], []⟩ w h (Or.inl rfl) (by simp)

/-- Neither the walk nor the item loop ever fails with the truncation
error. -/
theorem walk_noTrunc (net : ContentsNet) (subPath : String) :
    ∀ fuel : Nat,
      (∀ (d : String) (st : WalkOut) (e : GHError),
        walk net subPath fuel d st = .error e → e ≠ .treeTruncated) ∧
      (∀ (items : List GHContentsItem) (st : WalkOut) (e : GHError),
        walkItems net subPath fuel items st = .error e → e ≠ .treeTruncated) := by
  intro fuel
  induction fuel with
  | zero =>
    constructor
    · intro d st e h
      unfold walk at h
      have := Except.error.inj h
      subst this
      simp
    · intro items st e h
      cases items with
      | nil =>
        unfold walkItems at h
        exact absurd h (by simp)
      | cons a l =>
        unfold walkItems at h
        have := Except.error.inj h
        subst this
        simp
  | succ n ih =>
    constructor
    · intro d st e h
      unfold walk at h
      cases hg : ghFetch (net.listing d) with
      | error e' =>
        simp only [hg] at h
        have := Except.error.inj h
        subst this
        rcases ghFetch_error_cases hg with h' | h' | h' <;> simp [h']
      | ok items =>
        simp only [hg] at h
        exact ih.2 _ _ e h
    · intro items st e h
      cases items with
      | nil =>
        unfold walkItems at h
        exact absurd h (by simp)
      | cons item rest =>
        unfold walkItems at h
        cases htype : item.type == "dir" with
        | true =>
          simp only [htype, if_true] at h
          cases hw : walk net subPath n item.path st with
          | error e' =>
            simp only [hw] at h
            have := Except.error.inj h
            subst this
            exact ih.1 _ _ _ hw
          | ok st2 =>
            simp only [hw] at h
            exact ih.2 rest st2 e h
        | false =>
          simp only [htype, Bool.false_eq_true, if_false] at h
          cases he : contentsEligible item with
          | true =>
            simp only [he, if_true] at h
            cases hf : fetchRawFile item.path (net.raw item.path) with
            | error e' =>
              simp only [hf] at h
              have := Except.error.inj h
              subst this
              rw [fetchRawFile_error_cases hf]
              simp
            | ok c =>
              simp only [hf] at h
              exact ih.2 rest _ e h
          | false =>
            simp only [he, Bool.false_eq_true, if_false] at h
            exact ih.2 rest st e h

/-- `fetchViaContents` never fails with the truncation error. -/
theorem fetchViaContents_noTrunc {subPath : String} {net : ContentsNet}
    {log : String → Option Unit} {fuel : Nat} {e : GHError}
    (h : fetchViaContents subPath net log fuel = .error e) : e ≠ .treeTruncated := by
  unfold fetchViaContents at h
  cases hl : log msgViaContents with
  | none =>
    simp only [hl] at h
    have := Except.error.inj h
    subst this
    simp
  | some u =>
    simp only [hl] at h
    exact (walk_noTrunc net subPath fuel).1 subPath ⟨[], [], []⟩ e h

/-! ### Claims C3, C4, C10 -/

/-- A non-empty sub-path gives the `subPath ++ "/"` strip prefix. -/
theorem mkPfx_ne {subPath : String} (h : subPath ≠ "") : mkPfx subPath = subPath ++ "/" :=
  if_neg h

/-- `subPath ++ "/"` is never the empty string. -/
theorem append_slash_ne_empty (subPath : String) : subPath ++ "/" ≠ "" := by
  intro h
  have := congrArg String.data h
  rw [String.data_append] at this
  simp at this

/-- An oversized or binary tree entry is never eligible. -/
theorem treeEligible_false_of_bad (pfx : String) {item : GHTreeItem}
    (hbad : 512000 ≤ item.size.getD 0 ∨ isBinary item.path = true) :
    treeEligible pfx item = false := by
  cases hel : treeEligible pfx item with
  | false => rfl
  | true =>
    obtain ⟨-, -, hsz, hbin⟩ := treeEligible_true hel
    rcases hbad with h | h
    · omega
    · rw [hbin] at h; exact absurd h (by simp)

/-- An oversized or binary directory entry is never eligible. -/
theorem contentsEligible_false_of_bad {item : GHContentsItem}
    (hbad : 512000 ≤ item.size ∨ isBinary item.path = true) :
    contentsEligible item = false := by
  cases hel : contentsEligible item with
  | false => rfl
  | true =>
    obtain ⟨-, -, hsz, hbin⟩ := contentsEligible_true hel
    rcases hbad with h | h
    · omega
    · rw [hbin] at h; exact absurd h (by simp)

/-- Claim C3: in both fetch strategies, every entry whose size is at least
512,000 bytes and every entry whose extension is on the fixed binary
denylist is excluded from the resulting mapping — every mapping entry
stems from a different, eligible entry — and no download is attempted for
it.  (The duplicate-free path hypothesis reflects that a listing names
each path once.) -/
theorem claim3_size_and_binary_filter :
    (∀ (subPath : String) (tnet : TreeNet) (log : String → Option Unit)
       (out : FetchOut) (item : GHTreeItem),
      fetchViaTree subPath tnet log = .ok out →
      (tnet.treeRes.body.tree.map GHTreeItem.path).Nodup →
      item ∈ tnet.treeRes.body.tree →
      (512000 ≤ item.size.getD 0 ∨ isBinary item.path = true) →
      item.path ∉ out.downloads ∧
      ∀ kv ∈ out.files, ∃ b ∈ tnet.treeRes.body.tree,
        treeEligible (mkPfx subPath) b = true ∧ b.path ≠ item.path ∧
        kv = (relKey (mkPfx subPath) b.path, (tnet.raw b.path).body)) ∧
    (∀ (subPath : String) (cnet : ContentsNet) (log : String → Option Unit)
       (fuel : Nat) (w : WalkOut) (item : GHContentsItem),
      fetchViaContents subPath cnet log fuel = .ok w →
      (w.seen.map GHContentsItem.path).Nodup →
      item ∈ w.seen →
      (512000 ≤ item.size ∨ isBinary item.path = true) →
      item.path ∉ w.downloads ∧
      ∀ kv ∈ w.files, ∃ i ∈ w.seen, contentsEligible i = true ∧ i.path ≠ item.path ∧
        kv = (relKey (mkPfx subPath) i.path, (cnet.raw i.path).body)) := by
  constructor
  · intro subPath tnet log out item hres hnd hmem hbad
    obtain ⟨-, -, hdl⟩ := fetchViaTree_ok hres
    obtain ⟨hdownloads, hfiles⟩ := downloadBlobs_ok _ _ _ _ hdl
    have hnel := treeEligible_false_of_bad (mkPfx subPath) hbad
    constructor
    · intro hp
      rw [hdownloads] at hp
      obtain ⟨b, hbmem, hbpath⟩ := List.mem_map.mp hp
      obtain ⟨hbtree, hbel⟩ := List.mem_filter.mp hbmem
      have hbi : b = item := nodup_path_inj hnd hbtree hmem hbpath
      rw [hbi, hnel] at hbel
      exact absurd hbel (by simp)
    · intro kv hk
      rw [hfiles] at hk
      obtain ⟨b, hbmem, hkv⟩ := List.mem_map.mp hk
      obtain ⟨hbtree, hbel⟩ := List.mem_filter.mp hbmem
      refine ⟨b, hbtree, hbel, ?_, hkv.symm⟩
      intro heq
      have hbi : b = item := nodup_path_inj hnd hbtree hmem heq
      rw [hbi, hnel] at hbel
      exact absurd hbel (by simp)
  · intro subPath cnet log fuel w item hres hnd hmem hbad
    obtain ⟨hdl, hfl⟩ := fetchViaContents_prov hres
    have hnel := contentsEligible_false_of_bad hbad
    constructor
    · intro hp
      obtain ⟨i, hi, hel, hpi⟩ := hdl _ hp
      have hii : i = item := nodup_cpath_inj hnd hi hmem hpi.symm
      rw [hii, hnel] at hel
      exact absurd hel (by simp)
    · intro kv hk
      obtain ⟨i, hi, hel, hkv⟩ := hfl kv hk
      refine ⟨i, hi, hel, ?_, hkv⟩
      intro heq
      have hii : i = item := nodup_cpath_inj hnd hi hmem heq
      rw [hii, hnel] at hel
      exact absurd hel (by simp)

/-- Witness for C3: the oversized entries of both fixtures are neither
downloaded nor the source of any mapping entry. -/
theorem claim3_witness :
    (("big.txt" : String) ∉ (⟨[("Move.toml", "C")], ["Move.toml"]⟩ : FetchOut).downloads ∧
     ∀ kv ∈ (⟨[("Move.toml", "C")], ["Move.toml"]⟩ : FetchOut).files,
       ∃ b ∈ w3TreeNet.treeRes.body.tree,
         treeEligible (mkPfx "") b = true ∧ b.path ≠ "big.txt" ∧
         kv = (relKey (mkPfx "") b.path, (w3TreeNet.raw b.path).body)) ∧
    (("pkg/big.txt" : String) ∉
       (⟨[("Move.toml", "C")], ["pkg/Move.toml"],
         [⟨"Move.toml", "pkg/Move.toml", "file", some "dl", 100⟩,
          ⟨"big.txt", "pkg/big.txt", "file", some "dl", 600000⟩]⟩ : WalkOut).downloads ∧
     ∀ kv ∈ (⟨[("Move.toml", "C")], ["pkg/Move.toml"],
         [⟨"Move.toml", "pkg/Move.toml", "file", some "dl", 100⟩,
          ⟨"big.txt", "pkg/big.txt", "file", some "dl", 600000⟩]⟩ : WalkOut).files,
       ∃ i ∈ (⟨[("Move.toml", "C")], ["pkg/Move.toml"],
         [⟨"Move.toml", "pkg/Move.toml", "file", some "dl", 100⟩,
          ⟨"big.txt", "pkg/big.txt", "file", some "dl", 600000⟩]⟩ : WalkOut).seen,
         contentsEligible i = true ∧ i.path ≠ "pkg/big.txt" ∧
         kv = (relKey (mkPfx "pkg") i.path, (w3CNet.raw i.path).body)) := by
  constructor
  · exact claim3_size_and_binary_filter.1 "" w3TreeNet (fun _ => some ())
      ⟨[("Move.toml", "C")], ["Move.toml"]⟩
      ⟨"big.txt", "100644", "blob", "s2", some 600000, "u2"⟩
      (by decide) (by decide) (by decide) (Or.inl (by decide))
  · exact claim3_size_and_binary_filter.2 "pkg" w3CNet (fun _ => some ()) 5
      ⟨[("Move.toml", "C")], ["pkg/Move.toml"],
        [⟨"Move.toml", "pkg/Move.toml", "file", some "dl", 100⟩,
         ⟨"big.txt", "pkg/big.txt", "file", some "dl", 600000⟩]⟩
      ⟨"big.txt", "pkg/big.txt", "file", some "dl", 600000⟩
      (by decide) (by decide) (by decide) (Or.inl (by decide))

/-- Claim C4: for every mapping produced by either strategy with a
non-empty subpath, every key is the source entry's repository path with
the `subpath ++ "/"` prefix stripped (equivalently, the entry's path is
`subpath ++ "/" ++ key`), and every entry whose path is not under the
subpath contributes nothing: in the tree strategy such entries are never
downloaded and every mapping entry stems from an under-subpath entry; in
the directory walk (under a consistent listing) only under-subpath entries
are ever listed at all. -/
theorem claim4_path_rebasing :
    (∀ (subPath : String) (tnet : TreeNet) (log : String → Option Unit) (out : FetchOut),
      subPath ≠ "" →
      fetchViaTree subPath tnet log = .ok out →
      (∀ kv ∈ out.files, ∃ b ∈ tnet.treeRes.body.tree,
        treeEligible (subPath ++ "/") b = true ∧
        kv.1 = relKey (subPath ++ "/") b.path ∧
        b.path = subPath ++ "/" ++ kv.1 ∧ kv.2 = (tnet.raw b.path).body) ∧
      (∀ item ∈ tnet.treeRes.body.tree,
        jsStartsWith item.path (subPath ++ "/") = false → item.path ∉ out.downloads)) ∧
    (∀ (subPath : String) (cnet : ContentsNet) (log : String → Option Unit)
       (fuel : Nat) (w : WalkOut),
      subPath ≠ "" →
      (∀ (d : String), ∀ i ∈ (cnet.listing d).body, ∃ t, i.path = d ++ "/" ++ t) →
      fetchViaContents subPath cnet log fuel = .ok w →
      (∀ kv ∈ w.files, ∃ i ∈ w.seen, contentsEligible i = true ∧
        kv.1 = relKey (subPath ++ "/") i.path ∧
        i.path = subPath ++ "/" ++ kv.1 ∧ kv.2 = (cnet.raw i.path).body) ∧
      (∀ i ∈ w.seen, jsStartsWith i.path (subPath ++ "/") = true)) := by
  constructor
  · intro subPath tnet log out hsub hres
    obtain ⟨-, -, hdl⟩ := fetchViaTree_ok hres
    rw [mkPfx_ne hsub] at hdl
    obtain ⟨hdownloads, hfiles⟩ := downloadBlobs_ok _ _ _ _ hdl
    constructor
    · intro kv hk
      rw [hfiles] at hk
      obtain ⟨b, hbmem, hkv⟩ := List.mem_map.mp hk
      obtain ⟨hbtree, hbel⟩ := List.mem_filter.mp hbmem
      obtain ⟨-, hstart, -, -⟩ := treeEligible_true hbel
      have hstart' : jsStartsWith b.path (subPath ++ "/") = true := by
        rcases hstart with h' | h'
        · exact absurd h' (append_slash_ne_empty subPath)
        · exact h'
      have hk1 : kv.1 = relKey (subPath ++ "/") b.path := by rw [← hkv]
      have hk2 : kv.2 = (tnet.raw b.path).body := by rw [← hkv]
      refine ⟨b, hbtree, hbel, hk1, ?_, hk2⟩
      rw [hk1]
      exact jsStartsWith_recover (append_slash_ne_empty subPath) hstart'
    · intro item hmem hout hp
      rw [hdownloads] at hp
      obtain ⟨b, hbmem, hbpath⟩ := List.mem_map.mp hp
      obtain ⟨-, hbel⟩ := List.mem_filter.mp hbmem
      obtain ⟨-, hstart, -, -⟩ := treeEligible_true hbel
      rcases hstart with h' | h'
      · exact append_slash_ne_empty subPath h'
      · rw [hbpath, hout] at h'
        exact absurd h' (by simp)
  · intro subPath cnet log fuel w hsub hc hres
    obtain ⟨-, hfl⟩ := fetchViaContents_prov hres
    have hund := fetchViaContents_under hc hres
    refine ⟨?_, hund⟩
    intro kv hk
    obtain ⟨i, hi, hel, hkv⟩ := hfl kv hk
    have hstart := hund i hi
    have hk1 : kv.1 = relKey (subPath ++ "/") i.path := by
      rw [hkv, mkPfx_ne hsub]
    have hk2 : kv.2 = (cnet.raw i.path).body := by rw [hkv]
    refine ⟨i, hi, hel, hk1, ?_, hk2⟩
    rw [hk1]
    exact jsStartsWith_recover (append_slash_ne_empty subPath) hstart

/-- Witness for C4: both strategies at subpath `pkg`. -/
theorem claim4_witness :
    ((∀ kv ∈ (⟨[("Move.toml", "C")], ["pkg/Move.toml"]⟩ : FetchOut).files,
        ∃ b ∈ w4TreeNet.treeRes.body.tree,
          treeEligible ("pkg" ++ "/") b = true ∧
          kv.1 = relKey ("pkg" ++ "/") b.path ∧
          b.path = "pkg" ++ "/" ++ kv.1 ∧ kv.2 = (w4TreeNet.raw b.path).body) ∧
     (∀ item ∈ w4TreeNet.treeRes.body.tree,
        jsStartsWith item.path ("pkg" ++ "/") = false →
        item.path ∉ (⟨[("Move.toml", "C")], ["pkg/Move.toml"]⟩ : FetchOut).downloads)) ∧
    ((∀ kv ∈ (⟨[("Move.toml", "C")], ["pkg/Move.toml"],
        [⟨"Move.toml", "pkg/Move.toml", "file", some "dl", 100⟩,
         ⟨"big.txt", "pkg/big.txt", "file", some "dl", 600000⟩]⟩ : WalkOut).files,
        ∃ i ∈ (⟨[("Move.toml", "C")], ["pkg/Move.toml"],
          [⟨"Move.toml", "pkg/Move.toml", "file", some "dl", 100⟩,
           ⟨"big.txt", "pkg/big.txt", "file", some "dl", 600000⟩]⟩ : WalkOut).seen,
          contentsEligible i = true ∧
          kv.1 = relKey ("pkg" ++ "/") i.path ∧
          i.path = "pkg" ++ "/" ++ kv.1 ∧ kv.2 = (w3CNet.raw i.path).body) ∧
     (∀ i ∈ (⟨[("Move.toml", "C")], ["pkg/Move.toml"],
        [⟨"Move.toml", "pkg/Move.toml", "file", some "dl", 100⟩,
         ⟨"big.txt", "pkg/big.txt", "file", some "dl", 600000⟩]⟩ : WalkOut).seen,
        jsStartsWith i.path ("pkg" ++ "/") = true)) := by
  constructor
  · exact claim4_path_rebasing.1 "pkg" w4TreeNet (fun _ => some ())
      ⟨[("Move.toml", "C")], ["pkg/Move.toml"]⟩ (by decide) (by decide)
  · refine claim4_path_rebasing.2 "pkg" w3CNet (fun _ => some ()) 5
      ⟨[("Move.toml", "C")], ["pkg/Move.toml"],
        [⟨"Move.toml", "pkg/Move.toml", "file", some "dl", 100⟩,
         ⟨"big.txt", "pkg/big.txt", "file", some "dl", 600000⟩]⟩ (by decide) ?_ (by decide)
    intro d i hi
    by_cases hd : d = "pkg"
    · subst hd
      simp [w3CNet] at hi
      rcases hi with hi | hi
      · exact ⟨"Move.toml", by rw [hi]; decide⟩
      · exact ⟨"big.txt", by rw [hi]; decide⟩
    · simp [w3CNet, hd] at hi

/-- Claim C10: in the bulk-tree strategy, a blob entry whose size field is
absent is treated as size 0: it passes the size filter, is downloaded, and
its content is included in the mapping — even when that content is 512,000
bytes long or more. -/
theorem claim10_missing_size_downloaded
    (subPath : String) (net : TreeNet) (log : String → Option Unit)
    (out : FetchOut) (item : GHTreeItem)
    (hres : fetchViaTree subPath net log = .ok out)
    (hmem : item ∈ net.treeRes.body.tree)
    (hblob : item.type = "blob")
    (hsize : item.size = none)
    (hbin : isBinary item.path = false)
    (hpfx : mkPfx subPath = "" ∨ jsStartsWith item.path (mkPfx subPath) = true)
    (_hbig : 512000 ≤ ((net.raw item.path).body).length) :
    item.path ∈ out.downloads ∧
    (relKey (mkPfx subPath) item.path, (net.raw item.path).body) ∈ out.files := by
  obtain ⟨-, -, hdl⟩ := fetchViaTree_ok hres
  obtain ⟨hdownloads, hfiles⟩ := downloadBlobs_ok _ _ _ _ hdl
  have hel : treeEligible (mkPfx subPath) item = true := by
    refine treeEligible_of _ _ hblob hpfx ?_ hbin
    rw [hsize]
    simp
  have hmemf : item ∈ net.treeRes.body.tree.filter (treeEligible (mkPfx subPath)) :=
    List.mem_filter.mpr ⟨hmem, hel⟩
  constructor
  · rw [hdownloads]
    exact List.mem_map.mpr ⟨item, hmemf, rfl⟩
  · rw [hfiles]
    exact List.mem_map.mpr ⟨item, hmemf, rfl⟩

/-- Witness for C10: a blob without a size field whose content is exactly
512,000 characters is downloaded and included. -/
theorem claim10_witness :
    ("nosize.move" : String) ∈
      (⟨[("nosize.move", String.mk (List.replicate 512000 'a'))],
        ["nosize.move"]⟩ : FetchOut).downloads ∧
    (relKey (mkPfx "") "nosize.move", String.mk (List.replicate 512000 'a')) ∈
      (⟨[("nosize.move", String.mk (List.replicate 512000 'a'))],
        ["nosize.move"]⟩ : FetchOut).files := by
  have hbig : 512000 ≤ (String.mk (List.replicate 512000 'a')).length := by
    rw [String.length_mk, List.length_replicate]
  exact claim10_missing_size_downloaded ""
    ⟨⟨200, "OK", ⟨[⟨"nosize.move", "100644", "blob", "s", none, "u"⟩], false⟩⟩,
     fun _ => ⟨200, "OK", String.mk (List.replicate 512000 'a')⟩⟩
    (fun _ => some ())
    ⟨[("nosize.move", String.mk (List.replicate 512000 'a'))], ["nosize.move"]⟩
    ⟨"nosize.move", "100644", "blob", "s", none, "u"⟩
    rfl (by decide) rfl rfl (by decide) (Or.inl rfl) hbig

/-! ### Claims C5 and C6 -/

/-- Claim C5: when the bulk-tree strategy fails for any reason — in
particular on `truncated = true`, where it fails outright without any
partial mapping — the orchestrator's strategy phase runs the directory
walk and returns its outcome; if the walk also fails, that last error is
what propagates; and a truncation error is never the outcome of the
strategy phase. -/
theorem claim5_fallback_policy :
    (∀ (subPath : String) (tnet : TreeNet) (cnet : ContentsNet) (fuel : Nat)
       (log : String → Option Unit) (e : GHError) (u : Unit),
      fetchViaTree subPath tnet log = .error e →
      log msgFallback = some u →
      runStrategies subPath tnet cnet fuel log =
        (fetchViaContents subPath cnet log fuel).map WalkOut.files) ∧
    (∀ (subPath : String) (tnet : TreeNet) (log : String → Option Unit) (u : Unit),
      resOk tnet.treeRes.status = true →
      tnet.treeRes.body.truncated = true →
      log msgFetchTree = some u →
      fetchViaTree subPath tnet log = .error .treeTruncated) ∧
    (∀ (subPath : String) (tnet : TreeNet) (cnet : ContentsNet) (fuel : Nat)
       (log : String → Option Unit) (e e' : GHError) (u : Unit),
      fetchViaTree subPath tnet log = .error e →
      log msgFallback = some u →
      fetchViaContents subPath cnet log fuel = .error e' →
      runStrategies subPath tnet cnet fuel log = .error e') ∧
    (∀ (subPath : String) (tnet : TreeNet) (cnet : ContentsNet) (fuel : Nat)
       (log : String → Option Unit),
      runStrategies subPath tnet cnet fuel log ≠ .error .treeTruncated) := by
  refine ⟨?_, ?_, ?_, ?_⟩
  · intro subPath tnet cnet fuel log e u htree hlog
    unfold runStrategies
    simp only [htree, hlog]
    cases hvc : fetchViaContents subPath cnet log fuel <;> simp [hvc, Except.map]
  · intro subPath tnet log u hok htrunc hlog
    unfold fetchViaTree
    simp only [hlog]
    have hg : ghFetch tnet.treeRes = .ok tnet.treeRes.body := by
      unfold ghFetch
      rw [hok]
      simp
    simp [hg, htrunc]
  · intro subPath tnet cnet fuel log e e' u htree hlog hcont
    unfold runStrategies
    simp only [htree, hlog, hcont]
  · intro subPath tnet cnet fuel log h
    unfold runStrategies at h
    cases htree : fetchViaTree subPath tnet log with
    | ok out => simp [htree] at h
    | error e =>
      simp only [htree] at h
      cases hlog : log msgFallback with
      | none => simp [hlog] at h
      | some u =>
        simp only [hlog] at h
        cases hvc : fetchViaContents subPath cnet log fuel with
        | ok w => simp [hvc] at h
        | error e' =>
          simp only [hvc] at h
          have := Except.error.inj h
          exact fetchViaContents_noTrunc hvc this

/-- Witness for C5: the truncated listing fails the tree strategy with the
truncation error, and the orchestrator's phase reports the walk's 404, not
the truncation. -/
theorem claim5_witness :
    fetchViaTree "" w5TreeNet (fun _ => some ()) = .error .treeTruncated ∧
    runStrategies "" w5TreeNet w5CNet 1 (fun _ => some ()) = .error .notFound := by
  have htree := claim5_fallback_policy.2.1 "" w5TreeNet (fun _ => some ()) ()
    (by decide) (by decide) rfl
  refine ⟨htree, ?_⟩
  exact claim5_fallback_policy.2.2.1 "" w5TreeNet w5CNet 1 (fun _ => some ())
    .treeTruncated .notFound () htree rfl (by decide)

/-- Claim C6: once the strategy phase has produced a mapping, the
orchestrator fails with the empty-project error exactly when the mapping
has zero keys, fails with the not-a-package error when it is non-empty but
no key is `Move.toml` or ends in `/Move.toml`, and otherwise returns the
mapping together with the repo name from the parsed reference. -/
theorem claim6_validation
    (storage : String → Option String) (net : Network) (fuel : Nat)
    (rawUrl : String) (r : GitHubRef) (m : FileMap)
    (hparse : parseGitHubUrl rawUrl = some r)
    (href : r.ref ≠ "")
    (hrun : runStrategies r.path (mkTreeNet net r.ref (storage GH_TOKEN_KEY))
      (mkContentsNet net r.ref (storage GH_TOKEN_KEY)) fuel (fun _ => some ()) = .ok m) :
    fetchGitHubProject storage net fuel rawUrl none =
      if (objKeys m).length = 0 then .error .noFiles
      else if hasMoveToml m = false then .error .noMoveToml
      else .ok ⟨m, r.repo⟩ := by
  unfold fetchGitHubProject
  simp only [hparse, Option.getD_none, if_neg href, ite_self, hrun]

/-- Witness for C6: success, empty-project failure, and no-manifest
failure, each at a concrete provider. -/
theorem claim6_witness :
    fetchGitHubProject (fun _ => none) w6Net 1 "https://github.com/o/r/tree/main" none =
      .ok ⟨[("Move.toml", "C")], "r"⟩ ∧
    fetchGitHubProject (fun _ => none) w6NetEmpty 1 "https://github.com/o/r/tree/main" none =
      .error .noFiles ∧
    fetchGitHubProject (fun _ => none) w6NetNoToml 1 "https://github.com/o/r/tree/main" none =
      .error .noMoveToml := by
  refine ⟨?_, ?_, ?_⟩
  · exact (claim6_validation (fun _ => none) w6Net 1 "https://github.com/o/r/tree/main"
      ⟨"o", "r", "main", ""⟩ [("Move.toml", "C")]
      (by decide) (by decide) (by decide)).trans (by decide)
  · exact (claim6_validation (fun _ => none) w6NetEmpty 1 "https://github.com/o/r/tree/main"
      ⟨"o", "r", "main", ""⟩ []
      (by decide) (by decide) (by decide)).trans (by decide)
  · exact (claim6_validation (fun _ => none) w6NetNoToml 1 "https://github.com/o/r/tree/main"
      ⟨"o", "r", "main", ""⟩ [("readme.md", "C")]
      (by decide) (by decide) (by decide)).trans (by decide)

/-! ### Claims C8 and C9 -/

/-- Counterexample to C8 as stated: with the same provider and URL,
the import succeeds under no sink but a sink that throws on every
message aborts the import with that exception — a throwing sink does
change the result. -/
theorem claim8_counterexample :
    fetchGitHubProject (fun _ => none) w6Net 1 "https://github.com/o/r/tree/main"
      (some (fun _ => none)) = .error .logThrew ∧
    fetchGitHubProject (fun _ => none) w6Net 1 "https://github.com/o/r/tree/main" none =
      .ok ⟨[("Move.toml", "C")], "r"⟩ ∧
    fetchGitHubProject (fun _ => none) w6Net 1 "https://github.com/o/r/tree/main"
        (some (fun _ => none)) ≠
      fetchGitHubProject (fun _ => none) w6Net 1 "https://github.com/o/r/tree/main" none := by
  refine ⟨by decide, by decide, by decide⟩

/-- Claim C8 (amended): omitting the log sink is a no-op — the import
behaves exactly as with any sink that never throws — but a sink that
throws is not isolated: when the URL parses, a sink that throws on every
message aborts the import with the escaped exception. -/
theorem claim8_onlog_behaviour :
    (∀ (storage : String → Option String) (net : Network) (fuel : Nat)
       (rawUrl : String) (g : String → Option Unit),
      (∀ s, g s = some ()) →
      fetchGitHubProject storage net fuel rawUrl (some g) =
        fetchGitHubProject storage net fuel rawUrl none) ∧
    (∀ (storage : String → Option String) (net : Network) (fuel : Nat)
       (rawUrl : String) (r : GitHubRef),
      parseGitHubUrl rawUrl = some r →
      fetchGitHubProject storage net fuel rawUrl (some (fun _ => none)) =
        .error .logThrew) := by
  constructor
  · intro storage net fuel rawUrl g hg
    have : g = fun _ => some () := funext fun s => hg s
    rw [this]
    rfl
  · intro storage net fuel rawUrl r hparse
    unfold fetchGitHubProject
    simp only [hparse, Option.getD_some]

/-- Witness for C8 (amended): a non-throwing sink gives the very result of
omitting the sink, and the all-throwing sink aborts, at a concrete
provider. -/
theorem claim8_witness :
    fetchGitHubProject (fun _ => none) w6Net 1 "https://github.com/o/r/tree/main"
        (some (fun _ => some ())) =
      fetchGitHubProject (fun _ => none) w6Net 1 "https://github.com/o/r/tree/main" none ∧
    fetchGitHubProject (fun _ => none) w6NetEmpty 1 "https://github.com/o/r/tree/main"
        (some (fun _ => none)) = .error .logThrew := by
  refine ⟨claim8_onlog_behaviour.1 (fun _ => none) w6Net 1
      "https://github.com/o/r/tree/main" (fun _ => some ()) (fun _ => rfl),
    claim8_onlog_behaviour.2 (fun _ => none) w6NetEmpty 1
      "https://github.com/o/r/tree/main" ⟨"o", "r", "main", ""⟩ (by decide)⟩

/-- Counterexample to C9 as stated: the importer takes no credential
parameter — it reads the token from process-wide storage under `gh_token`
— so two calls with the same URL and the same provider behaviour differ
when the storage contents differ. -/
theorem claim9_counterexample :
    fetchGitHubProject (fun _ => none) w9Net 1 "https://github.com/o/r" none =
      .error .rateLimited ∧
    fetchGitHubProject (fun _ => some "token") w9Net 1 "https://github.com/o/r" none =
      .error .notFound ∧
    fetchGitHubProject (fun _ => none) w9Net 1 "https://github.com/o/r" none ≠
      fetchGitHubProject (fun _ => some "token") w9Net 1 "https://github.com/o/r" none := by
  refine ⟨by decide, by decide, by decide⟩

/-- Claim C9 (amended): the importer's only ambient read is the `gh_token`
key of the process-wide storage: two calls with the same url, provider and
sink, whose storages agree on that one key, produce identical results. -/
theorem claim9_storage_dependence :
    ∀ (storage1 storage2 : String → Option String) (net : Network) (fuel : Nat)
      (rawUrl : String) (onLog : Option (String → Option Unit)),
      storage1 GH_TOKEN_KEY = storage2 GH_TOKEN_KEY →
      fetchGitHubProject storage1 net fuel rawUrl onLog =
        fetchGitHubProject storage2 net fuel rawUrl onLog := by
  intro storage1 storage2 net fuel rawUrl onLog h
  unfold fetchGitHubProject
  rw [h]

/-- Witness for C9 (amended): two different storages agreeing on
`gh_token` give the same result. -/
theorem claim9_witness :
    fetchGitHubProject (fun _ => some "t") w9Net 1 "https://github.com/o/r" none =
      fetchGitHubProject (fun k => if k = GH_TOKEN_KEY then some "t" else none)
        w9Net 1 "https://github.com/o/r" none :=
  claim9_storage_dependence (fun _ => some "t")
    (fun k => if k = GH_TOKEN_KEY then some "t" else none) w9Net 1
    "https://github.com/o/r" none (by decide)

end Playmove
